import Mathlib

/-
  Verification of the energy-monitoring home system against its
  specification.  The IDEALEM-style compression engine (distance
  evaluator, template dictionary, threshold controller, compressor,
  decompressor) is described in the specification; the frontend
  (axios request interceptor, device-control view) is embedded from
  the JavaScript sources.  Sensor values are modelled as rationals.
-/

set_option maxHeartbeats 1000000

/-- A sensor value.  The source streams use floating-point scalars; the
model uses exact rationals so that arithmetic facts are decidable. -/
abbrev Val := ℚ

/-- Modelled from the spec: a Window is an ordered fixed-length sequence
of consecutive sample values for one device (spec section 3). -/
abbrev Window := List Val

/-- Modelled from the spec: the error taxonomy of section 7 — the
compression/decompression engine itself is not present under src, only
its callers and documentation, so the taxonomy follows the spec. -/
inductive EngineErr where
  | lengthMismatch
  | emptyDictionary
  | danglingReference
deriving Repr, DecidableEq

/-- Absolute value on the rationals, written so that it reduces by
computation. -/
def absQ (x : ℚ) : ℚ := if x < 0 then -x else x

theorem absQ_eq_abs (x : ℚ) : absQ x = |x| := by
  unfold absQ
  rcases lt_or_le x 0 with h | h
  · rw [if_pos h, abs_of_neg h]
  · rw [if_neg (not_lt.mpr h), abs_of_nonneg h]

/-- Sum of pointwise absolute differences of two windows. -/
def absDiffSum (a b : Window) : ℚ :=
  (List.zipWith (fun x y => absQ (x - y)) a b).sum

/-- Modelled from the spec: the Distance Evaluator of section 4.1 —
mean absolute difference between two equal-length windows, failing with
LengthMismatch on unequal lengths.  The concrete metric is a spec
default (the original algorithm is unspecified); only its contract
(non-negative, total on equal lengths, LengthMismatch otherwise) is
used by the claims. -/
def distance (a b : Window) : Except EngineErr ℚ :=
  if a.length = b.length then .ok (absDiffSum a b / (a.length : ℚ))
  else .error .lengthMismatch

theorem absDiffSum_nonneg (a b : Window) : 0 ≤ absDiffSum a b := by
  unfold absDiffSum
  induction a generalizing b with
  | nil => simp
  | cons x xs ih =>
    cases b with
    | nil => simp
    | cons y ys =>
      simp only [List.zipWith_cons_cons, List.sum_cons]
      have h1 : (0 : ℚ) ≤ absQ (x - y) := by
        rw [absQ_eq_abs]; exact abs_nonneg _
      have h2 := ih ys
      linarith

theorem absDiffSum_comm (a b : Window) : absDiffSum a b = absDiffSum b a := by
  unfold absDiffSum
  induction a generalizing b with
  | nil => cases b <;> simp
  | cons x xs ih =>
    cases b with
    | nil => simp
    | cons y ys =>
      simp only [List.zipWith_cons_cons, List.sum_cons, absQ_eq_abs,
        abs_sub_comm]
      simp only [absQ_eq_abs] at ih
      rw [ih ys]

/-- C7: the distance function is total and deterministic on pairs of
equal-length windows, returning a non-negative rational there, and it
fails with LengthMismatch exactly on pairs of unequal length. -/
theorem distance_total_nonneg_length_mismatch (a b : Window) :
    ((∃ d, distance a b = .ok d ∧ 0 ≤ d) ↔ a.length = b.length) ∧
    (distance a b = .error .lengthMismatch ↔ a.length ≠ b.length) := by
  unfold distance
  by_cases h : a.length = b.length
  · refine ⟨⟨fun _ => h, fun _ => ?_⟩, by simp [h]⟩
    exact ⟨absDiffSum a b / (a.length : ℚ), by simp [h],
      div_nonneg (absDiffSum_nonneg a b) (by positivity)⟩
  · constructor <;> simp [h]

/-- Modelled from the spec: a Template of the Template Dictionary (spec
section 3): identifier, stored window, creation time, match counter and
time of last match. -/
structure Template where
  template_id : Nat
  window : Window
  created_at : Nat
  match_count : Nat
  last_matched_at : Nat
deriving Repr, DecidableEq

/-- Eviction preference: t is strictly more evictable than u when it has
a smaller match_count, or the same match_count and an older
last_matched_at (LFU with aging tie-break, spec section 4.2). -/
abbrev moreEvictable (t u : Template) : Prop :=
  t.match_count < u.match_count ∨
    (t.match_count = u.match_count ∧ t.last_matched_at < u.last_matched_at)

/-- First template of the list (head included) that is minimal for the
eviction order; on full ties the earliest candidate wins. -/
def pickVictim (t : Template) : List Template → Template
  | [] => t
  | u :: us => pickVictim (if moreEvictable u t then u else t) us

/-- Modelled from the spec: the per-device Template Dictionary with its
active templates and the next fresh template identifier (identifiers are
never reused, spec section 4.2). -/
structure Dict where
  active : List Template
  nextId : Nat
deriving Repr, DecidableEq

/-- The dictionary of a device that has no templates yet. -/
def Dict.empty : Dict := { active := [], nextId := 0 }

def mkTemplate (tid : Nat) (w : Window) (now : Nat) : Template :=
  { template_id := tid, window := w, created_at := now,
    match_count := 0, last_matched_at := now }

/-- Remove the most evictable template from the list. -/
def evictOne : List Template → List Template
  | [] => []
  | t :: ts => (t :: ts).erase (pickVictim t ts)

/-- Modelled from the spec: admit (spec section 4.2) — insert the window
as a fresh template; when the dictionary is already at capacity K, first
evict the template with the lowest match_count, ties broken by oldest
last_matched_at. -/
def Dict.admitWindow (K : Nat) (now : Nat) (w : Window) (d : Dict) : Nat × Dict :=
  (d.nextId,
   { active := mkTemplate d.nextId w now ::
       (if K ≤ d.active.length then evictOne d.active else d.active),
     nextId := d.nextId + 1 })

/-- Modelled from the spec: record_match (spec section 4.2) — increment
match_count and refresh last_matched_at of the named template. -/
def Dict.recordMatch (tid : Nat) (now : Nat) (d : Dict) : Dict :=
  { d with active := d.active.map (fun t =>
      if t.template_id = tid then
        { t with match_count := t.match_count + 1, last_matched_at := now }
      else t) }

/-- Linear scan for the nearest template; propagates LengthMismatch from
the distance evaluator. -/
def scanNearest (w : Window) : List Template → Except EngineErr (Template × ℚ)
  | [] => .error .emptyDictionary
  | [t] =>
      match distance w t.window with
      | .error e => .error e
      | .ok q => .ok (t, q)
  | t :: u :: us =>
      match distance w t.window with
      | .error e => .error e
      | .ok q =>
          match scanNearest w (u :: us) with
          | .error e => .error e
          | .ok p => if p.2 < q then .ok p else .ok (t, q)

/-- Modelled from the spec: find_nearest (spec section 4.2) — scans all
templates of the device, returns the one at minimum distance, fails with
EmptyDictionary when the device has no templates yet. -/
def Dict.findNearest (w : Window) (d : Dict) : Except EngineErr (Template × ℚ) :=
  scanNearest w d.active

theorem pickVictim_mem (t : Template) (ts : List Template) :
    pickVictim t ts ∈ t :: ts := by
  induction ts generalizing t with
  | nil => simp [pickVictim]
  | cons u us ih =>
    simp only [pickVictim]
    by_cases h : moreEvictable u t <;>
      [rw [if_pos h]; rw [if_neg h]] <;>
      [have h1 := ih u; have h1 := ih t] <;>
      rw [List.mem_cons] at h1 <;>
      rcases h1 with h1 | h1 <;> simp [h1]

theorem moreEvictable_resolve {x b p : Template}
    (h1 : moreEvictable x p) (h2 : ¬ moreEvictable b p) : moreEvictable x b := by
  unfold moreEvictable at *
  omega

theorem moreEvictable_trans {a b c : Template}
    (h1 : moreEvictable a b) (h2 : moreEvictable b c) : moreEvictable a c := by
  unfold moreEvictable at *
  omega

theorem pickVictim_min (t : Template) (ts : List Template) :
    ∀ u ∈ t :: ts, ¬ moreEvictable u (pickVictim t ts) := by
  induction ts generalizing t with
  | nil =>
    intro u hu
    simp only [List.mem_singleton] at hu
    subst hu
    simp [pickVictim, moreEvictable]
  | cons v vs ih =>
    intro u hu hlt
    simp only [List.mem_cons] at hu
    simp only [pickVictim] at hlt
    by_cases hv : moreEvictable v t
    · rw [if_pos hv] at hlt
      have hmin := ih v
      rcases hu with hu | hu | hu
      · subst hu
        have hnb : ¬ moreEvictable v (pickVictim v vs) := hmin v (by simp)
        exact hnb (moreEvictable_trans hv hlt)
      · subst hu
        exact hmin u (by simp) hlt
      · exact hmin u (by simp [hu]) hlt
    · rw [if_neg hv] at hlt
      have hmin := ih t
      rcases hu with hu | hu | hu
      · subst hu
        exact hmin u (by simp) hlt
      · subst hu
        have hnb : ¬ moreEvictable t (pickVictim t vs) := hmin t (by simp)
        exact hv (moreEvictable_resolve hlt hnb)
      · exact hmin u (by simp [hu]) hlt

theorem evictOne_length (t : Template) (ts : List Template) :
    (evictOne (t :: ts)).length = ts.length := by
  have he := List.length_erase_of_mem (pickVictim_mem t ts)
  simp only [evictOne, List.length_cons] at *
  omega

theorem admit_length_le (K now : Nat) (w : Window) (d : Dict) (hK : 1 ≤ K)
    (h : d.active.length ≤ K) :
    ((d.admitWindow K now w).2).active.length ≤ K := by
  simp only [Dict.admitWindow, List.length_cons]
  by_cases hc : K ≤ d.active.length
  · rw [if_pos hc]
    rcases hd : d.active with _ | ⟨t, ts⟩
    · rw [hd] at hc
      simp only [List.length_nil, Nat.le_zero] at hc
      simp only [evictOne, List.length_nil]
      omega
    · rw [evictOne_length t ts]
      rw [hd] at h
      simp only [List.length_cons] at h
      omega
  · rw [if_neg hc]
    omega

/-- Dictionary operations visible at the Template Dictionary boundary
that can change its state (find_nearest is read-only). -/
inductive DictOp where
  | admitW (now : Nat) (w : Window)
  | recordMatch (tid : Nat) (now : Nat)
deriving Repr, DecidableEq

def applyDictOp (K : Nat) (d : Dict) : DictOp → Dict
  | .admitW now w => ((d.admitWindow K now w)).2
  | .recordMatch tid now => d.recordMatch tid now

/-- Run a sequence of dictionary operations from the empty dictionary. -/
def runDictOps (K : Nat) (ops : List DictOp) : Dict :=
  ops.foldl (applyDictOp K) Dict.empty

theorem applyDictOp_length_le (K : Nat) (d : Dict) (op : DictOp) (hK : 1 ≤ K)
    (h : d.active.length ≤ K) : (applyDictOp K d op).active.length ≤ K := by
  cases op with
  | admitW now w => exact admit_length_le K now w d hK h
  | recordMatch tid now => simpa [applyDictOp, Dict.recordMatch] using h

/-- C3: after any sequence of dictionary operations starting from the
empty dictionary, the number of active templates of the device is at
most the configured capacity K. -/
theorem dict_capacity_invariant (K : Nat) (ops : List DictOp) (hK : 1 ≤ K) :
    (runDictOps K ops).active.length ≤ K := by
  unfold runDictOps
  have hgen : ∀ d : Dict, d.active.length ≤ K →
      (ops.foldl (applyDictOp K) d).active.length ≤ K := by
    induction ops with
    | nil => intro d h; simpa using h
    | cons op rest ih =>
      intro d h
      exact ih _ (applyDictOp_length_le K d op hK h)
  exact hgen Dict.empty (by simp [Dict.empty])

/-- Witness for C3 at K = 2 and a concrete operation sequence. -/
theorem dict_capacity_invariant_witness :
    (runDictOps 2 [.admitW 0 [1, 1], .admitW 1 [9, 9], .recordMatch 0 2,
      .admitW 3 [5, 5]]).active.length ≤ 2 :=
  dict_capacity_invariant 2
    [.admitW 0 [1, 1], .admitW 1 [9, 9], .recordMatch 0 2, .admitW 3 [5, 5]]
    (by decide)

/-- C5: admitting a window into a dictionary already holding K templates
evicts exactly one template — one that is present, has the minimum
match_count among the active templates at that instant, ties broken by
the oldest last_matched_at — and afterwards the device again holds
exactly K templates, the new one replacing the victim. -/
theorem admit_eviction_correct (K now : Nat) (w : Window) (d : Dict)
    (hK : 1 ≤ K) (hlen : d.active.length = K) :
    ∃ victim, victim ∈ d.active ∧
      (∀ u ∈ d.active, victim.match_count ≤ u.match_count ∧
        (victim.match_count = u.match_count →
          victim.last_matched_at ≤ u.last_matched_at)) ∧
      ((d.admitWindow K now w)).2.active =
        mkTemplate d.nextId w now :: d.active.erase victim ∧
      ((d.admitWindow K now w)).2.active.length = K := by
  have hc : K ≤ d.active.length := le_of_eq hlen.symm
  rcases hd : d.active with _ | ⟨t, ts⟩
  · rw [hd] at hlen
    simp only [List.length_nil] at hlen
    omega
  · refine ⟨pickVictim t ts, hd ▸ pickVictim_mem t ts, ?_, ?_, ?_⟩
    · intro u hu
      have hmin := pickVictim_min t ts u hu
      unfold moreEvictable at hmin
      omega
    · simp only [Dict.admitWindow, hd]
      rw [if_pos (hd ▸ hc : K ≤ (t :: ts).length)]
      rfl
    · simp only [Dict.admitWindow, hd]
      rw [if_pos (hd ▸ hc : K ≤ (t :: ts).length)]
      simp only [List.length_cons, evictOne_length t ts]
      rw [hd] at hlen
      simp only [List.length_cons] at hlen
      omega

/-- Witness for C5: a dictionary at capacity K = 2; the victim must be
the template with the smaller match_count. -/
theorem admit_eviction_correct_witness :
    ∃ victim,
      victim ∈ [mkTemplate 0 [1, 1] 0, mkTemplate 1 [9, 9] 1] ∧
      (∀ u ∈ [mkTemplate 0 [1, 1] 0, mkTemplate 1 [9, 9] 1],
        victim.match_count ≤ u.match_count ∧
        (victim.match_count = u.match_count →
          victim.last_matched_at ≤ u.last_matched_at)) ∧
      ((Dict.admitWindow 2 5 [5, 5]
          { active := [mkTemplate 0 [1, 1] 0, mkTemplate 1 [9, 9] 1],
            nextId := 2 })).2.active =
        mkTemplate 2 [5, 5] 5 ::
          [mkTemplate 0 [1, 1] 0, mkTemplate 1 [9, 9] 1].erase victim ∧
      ((Dict.admitWindow 2 5 [5, 5]
          { active := [mkTemplate 0 [1, 1] 0, mkTemplate 1 [9, 9] 1],
            nextId := 2 })).2.active.length = 2 :=
  admit_eviction_correct 2 5 [5, 5]
    { active := [mkTemplate 0 [1, 1] 0, mkTemplate 1 [9, 9] 1], nextId := 2 }
    (by decide) (by decide)

/-- Modelled from the spec: the configuration surface of section 6 —
window length W, dictionary capacity K, threshold bounds and initial
value, target match-rate band, bounded adjustment step, error budget,
and the residual cap of section 4.3. -/
structure Config where
  W : Nat
  K : Nat
  tauMin : ℚ
  tauMax : ℚ
  tau0 : ℚ
  adjStep : ℚ
  targetLow : ℚ
  targetHigh : ℚ
  errBudget : ℚ
  residCap : ℚ
deriving Repr, DecidableEq

/-- Clamp x into the closed interval from lo to hi, written so that it
reduces by computation. -/
def clampQ (lo hi x : ℚ) : ℚ := if x < lo then lo else if hi < x then hi else x

theorem clampQ_eq_max_min (lo hi x : ℚ) (h : lo ≤ hi) :
    clampQ lo hi x = max lo (min hi x) := by
  unfold clampQ
  rcases lt_or_le x lo with h1 | h1
  · rw [if_pos h1, max_eq_left ((min_le_right hi x).trans h1.le)]
  · rw [if_neg (not_lt.mpr h1)]
    rcases lt_or_le hi x with h2 | h2
    · rw [if_pos h2, min_eq_left h2.le, max_eq_right h]
    · rw [if_neg (not_lt.mpr h2), min_eq_right h2, max_eq_right h1]

/-- Modelled from the spec: the Threshold Controller adjustment of
section 4.4 as the pure function of design note 9.3 — multiplicative
increase when the recent match rate is below the target band, decrease
when above the band or when recent error exceeds the budget, then
clamped into the band of admissible thresholds. -/
def updateTau (cfg : Config) (tau rate err : ℚ) : ℚ :=
  clampQ cfg.tauMin cfg.tauMax
    (if rate < cfg.targetLow then tau * (1 + cfg.adjStep)
     else if cfg.targetHigh < rate ∨ cfg.errBudget < err then
       tau * (1 - cfg.adjStep)
     else tau)

/-- Fold the controller over a history of (match rate, error) reports. -/
def tauFold (cfg : Config) (tau0 : ℚ) (updates : List (ℚ × ℚ)) : ℚ :=
  updates.foldl (fun t p => updateTau cfg t p.1 p.2) tau0

theorem clampQ_mem (lo hi x : ℚ) (h : lo ≤ hi) :
    lo ≤ clampQ lo hi x ∧ clampQ lo hi x ≤ hi := by
  rw [clampQ_eq_max_min lo hi x h]
  exact ⟨le_max_left lo _, max_le h (min_le_left hi x)⟩

theorem updateTau_mem (cfg : Config) (tau rate err : ℚ)
    (h : cfg.tauMin ≤ cfg.tauMax) :
    cfg.tauMin ≤ updateTau cfg tau rate err ∧
      updateTau cfg tau rate err ≤ cfg.tauMax :=
  clampQ_mem _ _ _ h

theorem tauFold_mem_of_mem (cfg : Config) (updates : List (ℚ × ℚ)) (t : ℚ)
    (h : cfg.tauMin ≤ cfg.tauMax) (ht : cfg.tauMin ≤ t ∧ t ≤ cfg.tauMax) :
    cfg.tauMin ≤ tauFold cfg t updates ∧ tauFold cfg t updates ≤ cfg.tauMax := by
  unfold tauFold
  induction updates generalizing t with
  | nil => simpa using ht
  | cons u rest ih =>
    simp only [List.foldl_cons]
    exact ih (updateTau cfg t u.1 u.2) (updateTau_mem cfg t u.1 u.2 h)

/-- C4: for every device configuration with a well-formed threshold band
and every non-empty sequence of compressor decision reports, the
threshold maintained by the controller lies in the closed interval from
tauMin to tauMax after any update, whatever the starting value. -/
theorem tau_never_leaves_bounds (cfg : Config) (tau0 : ℚ)
    (updates : List (ℚ × ℚ)) (h : cfg.tauMin ≤ cfg.tauMax)
    (hne : updates ≠ []) :
    cfg.tauMin ≤ tauFold cfg tau0 updates ∧
      tauFold cfg tau0 updates ≤ cfg.tauMax := by
  cases updates with
  | nil => exact absurd rfl hne
  | cons u rest =>
    have h0 := updateTau_mem cfg tau0 u.1 u.2 h
    have := tauFold_mem_of_mem cfg rest (updateTau cfg tau0 u.1 u.2) h h0
    simpa [tauFold, List.foldl_cons] using this

/-- Witness for C4: a concrete configuration, a starting threshold far
outside the band, and a three-report history. -/
theorem tau_never_leaves_bounds_witness :
    (1 : ℚ) / 10 ≤
        tauFold
          { W := 4, K := 2, tauMin := 1 / 10, tauMax := 2, tau0 := 1,
            adjStep := 1 / 20, targetLow := 3 / 5, targetHigh := 17 / 20,
            errBudget := 1, residCap := 1 } 50
          [(0, 0), (1, 2), (7 / 10, 1 / 2)] ∧
      tauFold
          { W := 4, K := 2, tauMin := 1 / 10, tauMax := 2, tau0 := 1,
            adjStep := 1 / 20, targetLow := 3 / 5, targetHigh := 17 / 20,
            errBudget := 1, residCap := 1 } 50
          [(0, 0), (1, 2), (7 / 10, 1 / 2)] ≤ 2 :=
  tau_never_leaves_bounds
    { W := 4, K := 2, tauMin := 1 / 10, tauMax := 2, tau0 := 1,
      adjStep := 1 / 20, targetLow := 3 / 5, targetHigh := 17 / 20,
      errBudget := 1, residCap := 1 } 50
    [(0, 0), (1, 2), (7 / 10, 1 / 2)] (by norm_num) (by decide)

/-- Modelled from the spec: a CompactRecord (spec section 3) — either a
window stored verbatim that becomes a new Template, or a reference to an
existing Template with an optional residual correction and the covered
timestamp range. -/
inductive CompactRecord where
  | newTemplate (template_id : Nat) (window : Window)
  | matchedReference (template_id : Nat) (residual : Option Window)
      (tsRange : Nat × Nat)
deriving Repr, DecidableEq

/-- Modelled from the spec: per-device compressor state — the active
Template Dictionary, the persisted template archive (templates are
retrievable even after eviction, spec section 4.2), the current
threshold, the rolling history of recent decisions, and a logical
clock counting processed windows. -/
structure CState where
  dict : Dict
  archive : List Template
  tau : ℚ
  hist : List (Bool × ℚ)
  now : Nat
deriving Repr, DecidableEq

/-- Initial compressor state for a fresh device. -/
def CState.init (cfg : Config) : CState :=
  { dict := Dict.empty, archive := [], tau := cfg.tau0, hist := [], now := 0 }

/-- Length of the rolling decision history kept for the controller. -/
def histKeep : Nat := 8

/-- Fraction of recent decisions that were matches. -/
def recentRate (hist : List (Bool × ℚ)) : ℚ :=
  if hist.length = 0 then 0
  else ((hist.filter (fun p => p.1)).length : ℚ) / (hist.length : ℚ)

/-- Largest recent distance observed, a proxy for reconstruction error. -/
def recentErr (hist : List (Bool × ℚ)) : ℚ :=
  (hist.map (fun p => p.2)).foldr max 0

/-- Residual of a matched window against its template, capped
elementwise (spec section 4.3 step 2). -/
def cappedResidual (c : ℚ) (w tw : Window) : Window :=
  List.zipWith (fun x y => clampQ (-c) c (x - y)) w tw

/-- State after admitting w as a new template: the dictionary inserts
(evicting if at capacity) and the persisted archive also receives the
template so its identity outlives eviction. -/
def admitState (cfg : Config) (st : CState) (w : Window) : Nat × CState :=
  let (tid, d2) := st.dict.admitWindow cfg.K st.now w
  (tid,
   { dict := d2, archive := mkTemplate tid w st.now :: st.archive,
     tau := st.tau, hist := st.hist, now := st.now })

/-- Push a decision into the rolling history and let the Threshold
Controller react (spec section 4.3 step 4 and section 4.4). -/
def reportDecision (cfg : Config) (st : CState) (matched : Bool) (q : ℚ) :
    CState :=
  let hist2 := ((matched, q) :: st.hist).take histKeep
  { st with
    hist := hist2
    tau := updateTau cfg st.tau (recentRate hist2) (recentErr hist2)
    now := st.now + 1 }

/-- Emission of a NewTemplate record: admit the window, then report a
non-match with the observed distance to the controller. -/
def emitNew (cfg : Config) (st : CState) (w : Window) (q : ℚ) :
    CompactRecord × CState :=
  let (tid, st2) := admitState cfg st w
  (.newTemplate tid w, reportDecision cfg st2 false q)

/-- Emission of a MatchedReference record: reference the nearest
template, store the capped residual, call record_match, and report the
match to the controller. -/
def emitMatch (cfg : Config) (st : CState) (w : Window) (t : Template)
    (q : ℚ) : CompactRecord × CState :=
  (.matchedReference t.template_id
     (some (cappedResidual cfg.residCap w t.window))
     (st.now * cfg.W, (st.now + 1) * cfg.W),
   reportDecision cfg
     { st with dict := st.dict.recordMatch t.template_id st.now } true q)

/-- Modelled from the spec: the per-window compressor decision of
section 4.3 — query find_nearest; on EmptyDictionary admit the window
unconditionally and emit NewTemplate; on a distance within the current
threshold emit MatchedReference with the capped residual and call
record_match; otherwise admit (possibly evicting) and emit NewTemplate.
LengthMismatch is an internal invariant violation and is fatal (spec
section 7). -/
def compressStep (cfg : Config) (st : CState) (w : Window) :
    Except EngineErr (CompactRecord × CState) :=
  match st.dict.findNearest w with
  | .error .emptyDictionary => .ok (emitNew cfg st w 0)
  | .error e => .error e
  | .ok (t, q) =>
      if q ≤ st.tau then .ok (emitMatch cfg st w t q)
      else .ok (emitNew cfg st w q)

/-- Run the compressor over a whole stream of windows, collecting the
emitted CompactRecords. -/
def compressRun (cfg : Config) (st : CState) :
    List Window → Except EngineErr (List CompactRecord × CState)
  | [] => .ok ([], st)
  | w :: ws =>
      match compressStep cfg st w with
      | .error e => .error e
      | .ok (r, st2) =>
          match compressRun cfg st2 ws with
          | .error e => .error e
          | .ok (rs, stf) => .ok (r :: rs, stf)

/-- Record emitted by a single compressor decision, when it succeeds. -/
def stepRecord (cfg : Config) (st : CState) (w : Window) :
    Option CompactRecord :=
  match compressStep cfg st w with
  | .ok (r, _) => some r
  | .error _ => none

/-- Point lookup of a persisted template by identifier. -/
def lookupTemplate (archive : List Template) (tid : Nat) : Option Template :=
  archive.find? (fun t => t.template_id == tid)

/-- Reconstruct one window from one CompactRecord: a NewTemplate record
verbatim; a MatchedReference record as the referenced template plus the
stored residual (template verbatim when the residual is absent); fails
with DanglingReference when the referenced template is not in storage
(spec section 4.5). -/
def reconWindow (archive : List Template) :
    CompactRecord → Except EngineErr Window
  | .newTemplate _ w => .ok w
  | .matchedReference tid res _ =>
      match lookupTemplate archive tid with
      | none => .error .danglingReference
      | some t =>
          .ok (match res with
               | none => t.window
               | some r => List.zipWith (· + ·) t.window r)

/-- Modelled from the spec: the Decompressor of section 4.5 — replay the
ordered CompactRecord sequence against the persisted templates,
producing one reconstructed window per record. -/
def decompress (archive : List Template) :
    List CompactRecord → Except EngineErr (List Window)
  | [] => .ok []
  | r :: rs =>
      match reconWindow archive r with
      | .error e => .error e
      | .ok w =>
          match decompress archive rs with
          | .error e => .error e
          | .ok ws => .ok (w :: ws)

/-- Pad a short trailing window up to the configured length (spec
section 4.3: stream end forces emission of the padded short window
rather than dropping leftover samples). -/
def padTo (W : Nat) (l : List Val) : List Val :=
  l ++ List.replicate (W - l.length) 0

/-- Modelled from the spec: window assembly of section 4.3 — buffer the
per-device value stream into consecutive windows of length W, the
trailing partial window padded. -/
def chunkWindows : Nat → List Val → List Window
  | 0, _ => []
  | _ + 1, [] => []
  | W + 1, v :: vs =>
      padTo (W + 1) (List.take (W + 1) (v :: vs)) ::
        chunkWindows (W + 1) (List.drop W vs)
termination_by _ l => l.length
decreasing_by
  simp only [List.length_drop, List.length_cons]
  omega

/-- Some persisted template carries this identifier. -/
def archHasId (archive : List Template) (tid : Nat) : Prop :=
  ∃ u ∈ archive, u.template_id = tid

/-- Well-formedness of an emitted record against the persisted
templates: stored windows and residuals have the configured length and
every referenced identifier is retrievable. -/
def RecOK (W : Nat) (archive : List Template) : CompactRecord → Prop
  | .newTemplate _ w => w.length = W
  | .matchedReference tid res _ =>
      archHasId archive tid ∧ ∀ r, res = some r → r.length = W

/-- Compressor-state invariant: active and persisted windows all have
the configured length, and every active template is retrievable from
the archive by its identifier (the retention invariant of spec
section 4.2). -/
def InvSt (W : Nat) (st : CState) : Prop :=
  (∀ t ∈ st.dict.active, t.window.length = W) ∧
  (∀ t ∈ st.archive, t.window.length = W) ∧
  (∀ t ∈ st.dict.active, archHasId st.archive t.template_id)

theorem scanNearest_sound (w : Window) :
    ∀ (l : List Template) (t : Template) (q : ℚ),
      scanNearest w l = .ok (t, q) → t ∈ l ∧ distance w t.window = .ok q := by
  intro l
  induction l with
  | nil => intro t q h; simp [scanNearest] at h
  | cons x xs ih =>
    intro t q h
    cases xs with
    | nil =>
      simp only [scanNearest] at h
      cases hd : distance w x.window with
      | error e => rw [hd] at h; simp at h
      | ok q0 =>
        rw [hd] at h
        simp only [Except.ok.injEq, Prod.mk.injEq] at h
        obtain ⟨rfl, rfl⟩ := h
        exact ⟨by simp, hd⟩
    | cons u us =>
      simp only [scanNearest] at h
      cases hd : distance w x.window with
      | error e => rw [hd] at h; simp at h
      | ok q0 =>
        rw [hd] at h
        cases hs : scanNearest w (u :: us) with
        | error e => rw [hs] at h; simp at h
        | ok p =>
          rw [hs] at h
          dsimp only at h
          by_cases hp : p.2 < q0
          · rw [if_pos hp] at h
            simp only [Except.ok.injEq] at h
            have hres := ih t q (by rw [hs, h])
            exact ⟨List.mem_cons_of_mem x hres.1, hres.2⟩
          · rw [if_neg hp] at h
            simp only [Except.ok.injEq, Prod.mk.injEq] at h
            obtain ⟨rfl, rfl⟩ := h
            exact ⟨by simp, hd⟩

theorem scanNearest_ok_of_lengths (w : Window) :
    ∀ l : List Template, l ≠ [] → (∀ t ∈ l, t.window.length = w.length) →
      ∃ t q, scanNearest w l = .ok (t, q) := by
  intro l
  induction l with
  | nil => intro h; exact absurd rfl h
  | cons x xs ih =>
    intro _ hlen
    have hdx : distance w x.window =
        .ok (absDiffSum w x.window / (w.length : ℚ)) := by
      unfold distance
      rw [if_pos (hlen x (by simp)).symm]
    cases xs with
    | nil =>
      exact ⟨x, absDiffSum w x.window / (w.length : ℚ),
        by simp [scanNearest, hdx]⟩
    | cons u us =>
      obtain ⟨t, q, hs⟩ :=
        ih (by simp) (fun t ht => hlen t (List.mem_cons_of_mem x ht))
      by_cases hq : q < absDiffSum w x.window / (w.length : ℚ)
      · exact ⟨t, q, by simp [scanNearest, hdx, hs, hq]⟩
      · exact ⟨x, absDiffSum w x.window / (w.length : ℚ),
          by simp [scanNearest, hdx, hs, hq]⟩

theorem evictOne_subset (l : List Template) : ∀ x ∈ evictOne l, x ∈ l := by
  cases l with
  | nil => simp [evictOne]
  | cons t ts => exact fun x hx => List.mem_of_mem_erase hx

theorem admit_active_mem (K now : Nat) (w : Window) (d : Dict) :
    ∀ x ∈ ((d.admitWindow K now w)).2.active,
      x = mkTemplate d.nextId w now ∨ x ∈ d.active := by
  intro x hx
  simp only [Dict.admitWindow, List.mem_cons] at hx
  rcases hx with hx | hx
  · exact Or.inl hx
  · right
    by_cases hc : K ≤ d.active.length
    · rw [if_pos hc] at hx
      exact evictOne_subset _ x hx
    · rw [if_neg hc] at hx
      exact hx

theorem recordMatch_active_mem (tid now : Nat) (d : Dict) :
    ∀ x ∈ (d.recordMatch tid now).active,
      ∃ y ∈ d.active, x.window = y.window ∧ x.template_id = y.template_id := by
  intro x hx
  simp only [Dict.recordMatch, List.mem_map] at hx
  obtain ⟨y, hy, hxy⟩ := hx
  refine ⟨y, hy, ?_⟩
  by_cases h : y.template_id = tid
  · rw [if_pos h] at hxy
    subst hxy
    exact ⟨rfl, rfl⟩
  · rw [if_neg h] at hxy
    subst hxy
    exact ⟨rfl, rfl⟩

theorem emitNew_fst (cfg : Config) (st : CState) (w : Window) (q : ℚ) :
    (emitNew cfg st w q).1 = CompactRecord.newTemplate st.dict.nextId w := rfl

theorem emitNew_dict (cfg : Config) (st : CState) (w : Window) (q : ℚ) :
    (emitNew cfg st w q).2.dict = ((st.dict.admitWindow cfg.K st.now w)).2 := rfl

theorem emitNew_archive (cfg : Config) (st : CState) (w : Window) (q : ℚ) :
    (emitNew cfg st w q).2.archive =
      mkTemplate st.dict.nextId w st.now :: st.archive := rfl

theorem emitMatch_dict (cfg : Config) (st : CState) (w : Window)
    (t : Template) (q : ℚ) :
    (emitMatch cfg st w t q).2.dict =
      st.dict.recordMatch t.template_id st.now := rfl

theorem emitMatch_archive (cfg : Config) (st : CState) (w : Window)
    (t : Template) (q : ℚ) :
    (emitMatch cfg st w t q).2.archive = st.archive := rfl

theorem archHasId_mono {A A2 : List Template} (h : ∀ u ∈ A, u ∈ A2)
    {tid : Nat} (hh : archHasId A tid) : archHasId A2 tid := by
  obtain ⟨u, hu, he⟩ := hh
  exact ⟨u, h u hu, he⟩

theorem RecOK_mono (W : Nat) {A A2 : List Template} (h : ∀ u ∈ A, u ∈ A2)
    (r : CompactRecord) (hr : RecOK W A r) : RecOK W A2 r := by
  cases r with
  | newTemplate tid w => exact hr
  | matchedReference tid res rng => exact ⟨archHasId_mono h hr.1, hr.2⟩

theorem cappedResidual_length (c : ℚ) (w tw : Window) :
    (cappedResidual c w tw).length = min w.length tw.length := by
  simp [cappedResidual]

theorem emitNew_ok (cfg : Config) (st : CState) (w : Window) (q : ℚ)
    (hInv : InvSt cfg.W st) (hw : w.length = cfg.W) :
    InvSt cfg.W (emitNew cfg st w q).2 ∧
    RecOK cfg.W (emitNew cfg st w q).2.archive (emitNew cfg st w q).1 ∧
    ∀ u ∈ st.archive, u ∈ (emitNew cfg st w q).2.archive := by
  obtain ⟨h1, h2, h3⟩ := hInv
  refine ⟨⟨?_, ?_, ?_⟩, ?_, ?_⟩
  · intro x hx
    rw [emitNew_dict] at hx
    rcases admit_active_mem _ _ _ _ x hx with hx | hx
    · subst hx; exact hw
    · exact h1 x hx
  · intro x hx
    rw [emitNew_archive] at hx
    rcases List.mem_cons.mp hx with hx | hx
    · subst hx; exact hw
    · exact h2 x hx
  · intro x hx
    rw [emitNew_dict] at hx
    rw [emitNew_archive]
    rcases admit_active_mem _ _ _ _ x hx with hx | hx
    · subst hx
      exact ⟨mkTemplate st.dict.nextId w st.now, by simp, rfl⟩
    · exact archHasId_mono (fun u hu => List.mem_cons_of_mem _ hu) (h3 x hx)
  · rw [emitNew_fst]
    exact hw
  · intro u hu
    rw [emitNew_archive]
    exact List.mem_cons_of_mem _ hu

theorem emitMatch_ok (cfg : Config) (st : CState) (w : Window) (t : Template)
    (q : ℚ) (hInv : InvSt cfg.W st) (hw : w.length = cfg.W)
    (ht : t ∈ st.dict.active) :
    InvSt cfg.W (emitMatch cfg st w t q).2 ∧
    RecOK cfg.W (emitMatch cfg st w t q).2.archive (emitMatch cfg st w t q).1 ∧
    ∀ u ∈ st.archive, u ∈ (emitMatch cfg st w t q).2.archive := by
  obtain ⟨h1, h2, h3⟩ := hInv
  refine ⟨⟨?_, ?_, ?_⟩, ⟨?_, ?_⟩, ?_⟩
  · intro x hx
    rw [emitMatch_dict] at hx
    obtain ⟨y, hy, hxy, _⟩ := recordMatch_active_mem _ _ _ x hx
    rw [hxy]
    exact h1 y hy
  · intro x hx
    rw [emitMatch_archive] at hx
    exact h2 x hx
  · intro x hx
    rw [emitMatch_dict] at hx
    rw [emitMatch_archive]
    obtain ⟨y, hy, _, hid⟩ := recordMatch_active_mem _ _ _ x hx
    rw [hid]
    exact h3 y hy
  · rw [emitMatch_archive]
    exact h3 t ht
  · intro r hr
    injection hr with hr
    rw [← hr, cappedResidual_length, hw, h1 t ht]
    simp
  · intro u hu
    rw [emitMatch_archive]
    exact hu

theorem compressStep_ok (cfg : Config) (st : CState) (w : Window)
    (hInv : InvSt cfg.W st) (hw : w.length = cfg.W) :
    ∃ r st2, compressStep cfg st w = .ok (r, st2) ∧ InvSt cfg.W st2 ∧
      RecOK cfg.W st2.archive r ∧ ∀ u ∈ st.archive, u ∈ st2.archive := by
  rcases hact : st.dict.active with _ | ⟨t0, ts⟩
  · have hfn : st.dict.findNearest w = .error .emptyDictionary := by
      unfold Dict.findNearest
      rw [hact, scanNearest]
    obtain ⟨hI, hR, hE⟩ := emitNew_ok cfg st w 0 hInv hw
    refine ⟨(emitNew cfg st w 0).1, (emitNew cfg st w 0).2, ?_, hI, hR, hE⟩
    unfold compressStep
    rw [hfn]
  · have hne : st.dict.active ≠ [] := by rw [hact]; simp
    have hlens : ∀ t ∈ st.dict.active, t.window.length = w.length := by
      intro t ht
      rw [hInv.1 t ht, hw]
    obtain ⟨t, q, hs⟩ := scanNearest_ok_of_lengths w st.dict.active hne hlens
    have hsound := scanNearest_sound w st.dict.active t q hs
    have hfn : st.dict.findNearest w = .ok (t, q) := hs
    by_cases hq : q ≤ st.tau
    · obtain ⟨hI, hR, hE⟩ := emitMatch_ok cfg st w t q hInv hw hsound.1
      refine ⟨(emitMatch cfg st w t q).1, (emitMatch cfg st w t q).2, ?_,
        hI, hR, hE⟩
      unfold compressStep
      rw [hfn]
      dsimp only
      rw [if_pos hq]
    · obtain ⟨hI, hR, hE⟩ := emitNew_ok cfg st w q hInv hw
      refine ⟨(emitNew cfg st w q).1, (emitNew cfg st w q).2, ?_, hI, hR, hE⟩
      unfold compressStep
      rw [hfn]
      dsimp only
      rw [if_neg hq]

theorem compressRun_ok (cfg : Config) :
    ∀ (ws : List Window) (st : CState), InvSt cfg.W st →
      (∀ w ∈ ws, w.length = cfg.W) →
      ∃ rs stf, compressRun cfg st ws = .ok (rs, stf) ∧
        rs.length = ws.length ∧ InvSt cfg.W stf ∧
        (∀ r ∈ rs, RecOK cfg.W stf.archive r) ∧
        ∀ u ∈ st.archive, u ∈ stf.archive := by
  intro ws
  induction ws with
  | nil =>
    intro st hInv _
    exact ⟨[], st, rfl, rfl, hInv, by simp, fun u hu => hu⟩
  | cons w ws ih =>
    intro st hInv hlen
    obtain ⟨r, st2, hstep, hI2, hR2, hE2⟩ :=
      compressStep_ok cfg st w hInv (hlen w (by simp))
    obtain ⟨rs, stf, hrun, hlen2, hIf, hRf, hEf⟩ :=
      ih st2 hI2 (fun x hx => hlen x (List.mem_cons_of_mem w hx))
    refine ⟨r :: rs, stf, ?_, by simp [hlen2], hIf, ?_,
      fun u hu => hEf u (hE2 u hu)⟩
    · unfold compressRun
      rw [hstep]
      dsimp only
      rw [hrun]
    · intro x hx
      rcases List.mem_cons.mp hx with hx | hx
      · subst hx
        exact RecOK_mono cfg.W hEf x hR2
      · exact hRf x hx

theorem reconWindow_ok (W : Nat) (archive : List Template)
    (hA : ∀ t ∈ archive, t.window.length = W) (r : CompactRecord)
    (hr : RecOK W archive r) :
    ∃ x, reconWindow archive r = .ok x ∧ x.length = W := by
  cases r with
  | newTemplate tid w => exact ⟨w, rfl, hr⟩
  | matchedReference tid res rng =>
    obtain ⟨⟨u, hu, hid⟩, hres⟩ := hr
    have hsome : (lookupTemplate archive tid).isSome := by
      rw [lookupTemplate, List.find?_isSome]
      exact ⟨u, hu, by simp [hid]⟩
    obtain ⟨v, hv⟩ := Option.isSome_iff_exists.mp hsome
    have hvmem : v ∈ archive := List.mem_of_find?_eq_some hv
    cases res with
    | none =>
      refine ⟨v.window, ?_, hA v hvmem⟩
      unfold reconWindow
      dsimp only
      rw [hv]
    | some res0 =>
      refine ⟨List.zipWith (· + ·) v.window res0, ?_, ?_⟩
      · unfold reconWindow
        dsimp only
        rw [hv]
      · simp [hA v hvmem, hres res0 rfl]

theorem decompress_ok (W : Nat) (archive : List Template)
    (hA : ∀ t ∈ archive, t.window.length = W) :
    ∀ rs : List CompactRecord, (∀ r ∈ rs, RecOK W archive r) →
      ∃ xs, decompress archive rs = .ok xs ∧ xs.length = rs.length ∧
        ∀ x ∈ xs, x.length = W := by
  intro rs
  induction rs with
  | nil => intro h2; exact ⟨[], rfl, rfl, by simp⟩
  | cons r rest ih =>
    intro hrs
    obtain ⟨x, hx, hxl⟩ := reconWindow_ok W archive hA r (hrs r (by simp))
    obtain ⟨xs, hxs, hlen, hall⟩ :=
      ih (fun r2 h2 => hrs r2 (List.mem_cons_of_mem r h2))
    refine ⟨x :: xs, ?_, by simp [hlen], ?_⟩
    · unfold decompress
      rw [hx]
      dsimp only
      rw [hxs]
    · intro y hy
      rcases List.mem_cons.mp hy with hy | hy
      · subst hy
        exact hxl
      · exact hall y hy

theorem padTo_length (W : Nat) (l : List Val) (h : l.length ≤ W) :
    (padTo W l).length = W := by
  simp only [padTo, List.length_append, List.length_replicate]
  omega

theorem chunkWindows_mem_length (W : Nat) (vals : List Val) :
    ∀ w ∈ chunkWindows W vals, w.length = W := by
  induction W, vals using chunkWindows.induct with
  | case1 vals => simp [chunkWindows]
  | case2 W => simp [chunkWindows]
  | case3 W v vs ih =>
    intro w hw
    rw [chunkWindows] at hw
    rcases List.mem_cons.mp hw with hw | hw
    · subst hw
      apply padTo_length
      have := List.length_take (W + 1) (v :: vs)
      omega
    · exact ih w hw

theorem map_length_eq_replicate (W : Nat) :
    ∀ l : List Window, (∀ x ∈ l, x.length = W) →
      l.map List.length = List.replicate l.length W := by
  intro l
  induction l with
  | nil => simp
  | cons x xs ih =>
    intro h
    simp [h x (by simp), ih (fun y hy => h y (List.mem_cons_of_mem x hy)),
      List.replicate_succ]

/-- C1: for every device configuration and every finite ingested value
stream, the compressor emits exactly one CompactRecord per ingested
Window, decompressing the full record sequence succeeds (no dangling
references) and yields exactly one reconstructed window per record with
exactly the ingested window lengths — one ReconstructedSample per
original Window position, no gaps, no duplicates. -/
theorem compress_decompress_round_trip (cfg : Config) (vals : List Val) :
    ∃ rs stf rws,
      compressRun cfg (CState.init cfg) (chunkWindows cfg.W vals) =
        .ok (rs, stf) ∧
      rs.length = (chunkWindows cfg.W vals).length ∧
      decompress stf.archive rs = .ok rws ∧
      rws.length = (chunkWindows cfg.W vals).length ∧
      rws.map List.length = (chunkWindows cfg.W vals).map List.length := by
  have hInv0 : InvSt cfg.W (CState.init cfg) := by
    refine ⟨?_, ?_, ?_⟩ <;> simp [CState.init, Dict.empty, InvSt]
  have hlens := chunkWindows_mem_length cfg.W vals
  obtain ⟨rs, stf, hrun, hlen, hIf, hRf, _⟩ :=
    compressRun_ok cfg (chunkWindows cfg.W vals) (CState.init cfg) hInv0 hlens
  obtain ⟨rws, hdec, hdlen, hall⟩ :=
    decompress_ok cfg.W stf.archive hIf.2.1 rs hRf
  refine ⟨rs, stf, rws, hrun, hlen, hdec, hdlen.trans hlen, ?_⟩
  rw [map_length_eq_replicate cfg.W rws hall,
    map_length_eq_replicate cfg.W _ hlens, hdlen, hlen]

theorem emitMatch_fst (cfg : Config) (st : CState) (w : Window)
    (t : Template) (q : ℚ) :
    (emitMatch cfg st w t q).1 =
      CompactRecord.matchedReference t.template_id
        (some (cappedResidual cfg.residCap w t.window))
        (st.now * cfg.W, (st.now + 1) * cfg.W) := rfl

theorem clamp_abs_le (c d : ℚ) (hc : 0 ≤ c) :
    |clampQ (-c) c d - d| ≤ |d| := by
  rw [clampQ_eq_max_min (-c) c d (by linarith)]
  rcases le_total d (-c) with h1 | h1
  · rw [min_eq_right (h1.trans (by linarith)), max_eq_left h1,
      abs_of_nonneg (by linarith), abs_of_nonpos (by linarith)]
    linarith
  · rcases le_total c d with h2 | h2
    · rw [min_eq_left h2, max_eq_right (by linarith),
        abs_of_nonpos (by linarith), abs_of_nonneg (by linarith)]
      linarith
    · rw [min_eq_right h2, max_eq_right h1]
      simp [abs_nonneg]

theorem absDiffSum_capped_le (c : ℚ) (hc : 0 ≤ c) :
    ∀ w tw : Window,
      absDiffSum (List.zipWith (· + ·) tw (cappedResidual c w tw)) w ≤
        absDiffSum tw w := by
  intro w
  induction w with
  | nil => intro tw; simp [cappedResidual, absDiffSum]
  | cons x xs ih =>
    intro tw
    cases tw with
    | nil => simp [cappedResidual, absDiffSum]
    | cons y ys =>
      simp only [cappedResidual, List.zipWith_cons_cons, absDiffSum,
        List.sum_cons]
      have hpt : absQ (y + clampQ (-c) c (x - y) - x) ≤ absQ (y - x) := by
        rw [absQ_eq_abs, absQ_eq_abs]
        have h0 := clamp_abs_le c (x - y) hc
        have he : y + clampQ (-c) c (x - y) - x =
            clampQ (-c) c (x - y) - (x - y) := by ring
        rw [he]
        calc |clampQ (-c) c (x - y) - (x - y)| ≤ |x - y| := h0
          _ = |y - x| := abs_sub_comm x y
      have hrest := ih ys
      simp only [cappedResidual, absDiffSum] at hrest
      linarith

theorem div_natCast_le_div (a b : ℚ) (n : ℕ) (h : a ≤ b) :
    a / (n : ℚ) ≤ b / (n : ℚ) := by
  rcases Nat.eq_zero_or_pos n with h0 | h0
  · simp [h0]
  · have hn : (0 : ℚ) < (n : ℚ) := by exact_mod_cast h0
    exact (div_le_div_iff_of_pos_right hn).mpr h

/-- Reconstruction of a matched window from its template and optional
residual, exactly as the matched branch of the decompressor does it. -/
def reconFromMatch (tw : Window) (res : Option Window) : Window :=
  match res with
  | none => tw
  | some r => List.zipWith (· + ·) tw r

/-- C2: whenever a compressor decision emits a MatchedReference record,
the distance between the window reconstructed from that record (the
referenced template plus the stored residual) and the original window is
defined and at most the threshold of that device at the moment of
emission. -/
theorem matched_reference_error_bounded (cfg : Config) (st : CState)
    (w : Window) (tid : Nat) (res : Option Window) (rng : Nat × Nat)
    (hc : 0 ≤ cfg.residCap)
    (hlen : ∀ t ∈ st.dict.active, t.window.length = w.length)
    (hrec : stepRecord cfg st w = some (.matchedReference tid res rng)) :
    ∃ t e, t ∈ st.dict.active ∧ t.template_id = tid ∧
      distance (reconFromMatch t.window res) w = .ok e ∧ e ≤ st.tau := by
  unfold stepRecord compressStep at hrec
  cases hfn : st.dict.findNearest w with
  | error e =>
    rw [hfn] at hrec
    cases e <;> simp [emitNew, admitState] at hrec
  | ok p =>
    obtain ⟨t, q⟩ := p
    rw [hfn] at hrec
    dsimp only at hrec
    by_cases hq : q ≤ st.tau
    · rw [if_pos hq] at hrec
      dsimp only at hrec
      rw [emitMatch_fst] at hrec
      simp only [Option.some.injEq, CompactRecord.matchedReference.injEq]
        at hrec
      obtain ⟨h1, h2, h3⟩ := hrec
      subst h2
      have hsound := scanNearest_sound w st.dict.active t q hfn
      have htw : t.window.length = w.length := hlen t hsound.1
      have hcl : (cappedResidual cfg.residCap w t.window).length = w.length := by
        rw [cappedResidual_length, htw]
        simp
      have hrl :
          (List.zipWith (· + ·) t.window
            (cappedResidual cfg.residCap w t.window)).length = w.length := by
        simp [htw, hcl]
      refine ⟨t, absDiffSum (List.zipWith (· + ·) t.window
          (cappedResidual cfg.residCap w t.window)) w / (w.length : ℚ),
        hsound.1, h1, ?_, ?_⟩
      · unfold reconFromMatch distance
        dsimp only
        rw [if_pos hrl, hrl]
      · have hq2 := hsound.2
        unfold distance at hq2
        rw [if_pos htw.symm] at hq2
        simp only [Except.ok.injEq] at hq2
        calc absDiffSum (List.zipWith (· + ·) t.window
              (cappedResidual cfg.residCap w t.window)) w / (w.length : ℚ)
            ≤ absDiffSum t.window w / (w.length : ℚ) :=
              div_natCast_le_div _ _ _ (absDiffSum_capped_le cfg.residCap hc w t.window)
          _ = absDiffSum w t.window / (w.length : ℚ) := by rw [absDiffSum_comm]
          _ = q := hq2
          _ ≤ st.tau := hq
    · rw [if_neg hq] at hrec
      simp [emitNew, admitState] at hrec

/-- Witness for C2: a dictionary holding the template [1, 1] with
threshold 1; the window [1, 3/2] matches at distance 1/4 and the record
carries the capped residual [0, 1/2]. -/
theorem matched_reference_error_bounded_witness :
    ∃ t e,
      t ∈ ({ dict := { active := [mkTemplate 0 [1, 1] 0], nextId := 1 },
             archive := [mkTemplate 0 [1, 1] 0], tau := 1, hist := [],
             now := 1 } : CState).dict.active ∧
      t.template_id = 0 ∧
      distance (reconFromMatch t.window (some [0, 1 / 2])) [1, 3 / 2] =
        .ok e ∧
      e ≤ ({ dict := { active := [mkTemplate 0 [1, 1] 0], nextId := 1 },
             archive := [mkTemplate 0 [1, 1] 0], tau := 1, hist := [],
             now := 1 } : CState).tau :=
  matched_reference_error_bounded
    { W := 2, K := 2, tauMin := 0, tauMax := 2, tau0 := 1, adjStep := 1 / 20,
      targetLow := 3 / 5, targetHigh := 17 / 20, errBudget := 1,
      residCap := 1 }
    { dict := { active := [mkTemplate 0 [1, 1] 0], nextId := 1 },
      archive := [mkTemplate 0 [1, 1] 0], tau := 1, hist := [], now := 1 }
    [1, 3 / 2] 0 (some [0, 1 / 2]) (2, 4)
    (by norm_num)
    (by decide)
    (by with_unfolding_all decide)

/-- Run the decompressor, and if it succeeds run it again over the same
record set, returning the second output. -/
def decompressTwice (archive : List Template) (rs : List CompactRecord) :
    Except EngineErr (List Window) :=
  match decompress archive rs with
  | .error e => .error e
  | .ok _ => decompress archive rs

/-- One step of the single-pass left fold over records. -/
def decompressFoldStep (archive : List Template)
    (acc : Except EngineErr (List Window)) (r : CompactRecord) :
    Except EngineErr (List Window) :=
  match acc with
  | .error e => .error e
  | .ok ws =>
      match reconWindow archive r with
      | .error e => .error e
      | .ok x => .ok (ws ++ [x])

/-- The decompressor phrased as a single-pass left fold over the record
sequence. -/
def decompressFold (archive : List Template) (rs : List CompactRecord) :
    Except EngineErr (List Window) :=
  rs.foldl (decompressFoldStep archive) (.ok [])

theorem foldl_decompressFoldStep_error (archive : List Template)
    (rs : List CompactRecord) (e : EngineErr) :
    rs.foldl (decompressFoldStep archive) (.error e) = .error e := by
  induction rs with
  | nil => rfl
  | cons r rest ih =>
    rw [List.foldl_cons]
    have hstep : decompressFoldStep archive (.error e) r = .error e := rfl
    rw [hstep, ih]

theorem foldl_decompressFoldStep_acc (archive : List Template) :
    ∀ (rs : List CompactRecord) (acc : List Window),
      rs.foldl (decompressFoldStep archive) (.ok acc) =
        match decompress archive rs with
        | .ok ws => .ok (acc ++ ws)
        | .error e => .error e := by
  intro rs
  induction rs with
  | nil =>
    intro acc
    simp [decompress]
  | cons r rest ih =>
    intro acc
    rw [List.foldl_cons]
    cases hr : reconWindow archive r with
    | error e =>
      have hstep : decompressFoldStep archive (.ok acc) r = .error e := by
        unfold decompressFoldStep
        rw [hr]
      have hd : decompress archive (r :: rest) = .error e := by
        unfold decompress
        rw [hr]
      rw [hstep, foldl_decompressFoldStep_error, hd]
    | ok x =>
      have hstep : decompressFoldStep archive (.ok acc) r = .ok (acc ++ [x]) := by
        unfold decompressFoldStep
        rw [hr]
      rw [hstep, ih (acc ++ [x])]
      cases hds : decompress archive rest with
      | error e =>
        have hd : decompress archive (r :: rest) = .error e := by
          unfold decompress
          rw [hr]
          dsimp only
          rw [hds]
        rw [hd]
      | ok ws =>
        have hd : decompress archive (r :: rest) = .ok (x :: ws) := by
          unfold decompress
          rw [hr]
          dsimp only
          rw [hds]
        rw [hd]
        simp

/-- C6: decompression is a pure function of the record set — running it
twice over the same records yields bit-identical output — and it is
equivalently a single-pass left fold over the records, so reconstruction
is restartable and idempotent. -/
theorem decompress_idempotent_single_pass (archive : List Template)
    (rs : List CompactRecord) :
    decompressTwice archive rs = decompress archive rs ∧
    decompressFold archive rs = decompress archive rs := by
  constructor
  · unfold decompressTwice
    cases hd : decompress archive rs <;> rfl
  · unfold decompressFold
    rw [foldl_decompressFoldStep_acc archive rs []]
    cases hd : decompress archive rs <;> simp

/-- Modelled from the spec: a ReconstructedSample of the export boundary
(spec sections 3 and 6): one self-describing object per sample with
device_id, timestamp and reconstructed value. -/
structure ReconstructedSample where
  device_id : String
  timestamp : Nat
  value : Val
deriving Repr, DecidableEq

/-- Modelled from the spec: a row of the records collection at the
persistence boundary, keyed by device and start of the timestamp
range. -/
structure RecordRow where
  device_id : String
  startTs : Nat
  crec : CompactRecord
deriving Repr, DecidableEq

/-- Does a timestamp fall into the optional requested time range. -/
def inRange (range : Option (Nat × Nat)) (ts : Nat) : Bool :=
  match range with
  | none => true
  | some (lo, hi) => decide (lo ≤ ts) && decide (ts ≤ hi)

/-- The samples of one reconstructed window, timestamped consecutively
from the start of the covered range. -/
def windowSamples (dev : String) (start : Nat) (w : Window) :
    List ReconstructedSample :=
  w.enum.map (fun p =>
    { device_id := dev, timestamp := start + p.1, value := p.2 })

/-- Modelled from the spec: the export-boundary decompression entry
point (spec section 6) — the backend handler behind the frontend caller
handleDecompress is not under src, only its caller is.  It takes a
device_id and an optional time range, selects that device's records in
range, replays them through the Decompressor, and returns the sample
sequence, one object per sample. -/
def handleDecompress (archive : List Template) (rows : List RecordRow)
    (dev : String) (range : Option (Nat × Nat)) :
    Except EngineErr (List ReconstructedSample) :=
  let sel := rows.filter
    (fun row => row.device_id == dev && inRange range row.startTs)
  match decompress archive (sel.map (fun row => row.crec)) with
  | .error e => .error e
  | .ok rws =>
      .ok (List.flatten (List.zipWith
        (fun row rw => windowSamples dev row.startTs rw) sel rws))

theorem decompress_length (archive : List Template) :
    ∀ (rs : List CompactRecord) (ws : List Window),
      decompress archive rs = .ok ws → ws.length = rs.length := by
  intro rs
  induction rs with
  | nil =>
    intro ws h
    simp only [decompress, Except.ok.injEq] at h
    rw [← h]
    rfl
  | cons r rest ih =>
    intro ws h
    unfold decompress at h
    cases hr : reconWindow archive r with
    | error e => rw [hr] at h; simp at h
    | ok x =>
      rw [hr] at h
      dsimp only at h
      cases hd : decompress archive rest with
      | error e => rw [hd] at h; simp at h
      | ok xs =>
        rw [hd] at h
        simp only [Except.ok.injEq] at h
        rw [← h]
        simp [ih xs hd]

theorem windowSamples_length (dev : String) (start : Nat) (w : Window) :
    (windowSamples dev start w).length = w.length := by
  simp [windowSamples]

theorem windowSamples_device (dev : String) (start : Nat) (w : Window) :
    ∀ s ∈ windowSamples dev start w, s.device_id = dev := by
  intro s hs
  simp only [windowSamples, List.mem_map] at hs
  obtain ⟨p, _, hp⟩ := hs
  rw [← hp]

theorem zipWith_windowSamples_mem (dev : String) :
    ∀ (sel : List RecordRow) (rws : List Window),
      ∀ x ∈ List.zipWith
          (fun row rw => windowSamples dev row.startTs rw) sel rws,
        ∃ s0 w0, x = windowSamples dev s0 w0 := by
  intro sel
  induction sel with
  | nil => intro rws x hx; simp at hx
  | cons row rest ih =>
    intro rws x hx
    cases rws with
    | nil => simp at hx
    | cons rw rws2 =>
      simp only [List.zipWith_cons_cons, List.mem_cons] at hx
      rcases hx with hx | hx
      · exact ⟨row.startTs, rw, hx⟩
      · exact ih rws2 x hx

theorem zipWith_windowSamples_lengths (dev : String) :
    ∀ (sel : List RecordRow) (rws : List Window),
      (List.zipWith (fun row rw => windowSamples dev row.startTs rw)
          sel rws).map List.length =
        (List.zipWith (fun _ rw => rw.length)
          (sel : List RecordRow) rws : List Nat) := by
  intro sel
  induction sel with
  | nil => intro rws; simp
  | cons row rest ih =>
    intro rws
    cases rws with
    | nil => simp
    | cons rw rws2 =>
      simp only [List.zipWith_cons_cons, List.map_cons,
        windowSamples_length, ih rws2]

/-- C8: the export boundary is a decompression entry point taking a
device identifier and an optional time range; on success every returned
object is a self-describing sample carrying the requested device_id, and
the output holds exactly one object per reconstructed sample value of
the selected records. -/
theorem export_decompress_entry (archive : List Template)
    (rows : List RecordRow) (dev : String) (range : Option (Nat × Nat))
    (out : List ReconstructedSample)
    (h : handleDecompress archive rows dev range = .ok out) :
    (∀ s ∈ out, s.device_id = dev) ∧
    ∃ rws,
      decompress archive
        ((rows.filter (fun row =>
          row.device_id == dev && inRange range row.startTs)).map
            (fun row => row.crec)) = .ok rws ∧
      out.length = (rws.map List.length).sum := by
  unfold handleDecompress at h
  dsimp only at h
  cases hd : decompress archive
      ((rows.filter (fun row =>
        row.device_id == dev && inRange range row.startTs)).map
          (fun row => row.crec)) with
  | error e => rw [hd] at h; simp at h
  | ok rws =>
    rw [hd] at h
    simp only [Except.ok.injEq] at h
    constructor
    · intro s hs
      rw [← h] at hs
      simp only [List.mem_flatten] at hs
      obtain ⟨l, hl, hsl⟩ := hs
      obtain ⟨s0, w0, hlw⟩ := zipWith_windowSamples_mem dev _ rws l hl
      exact windowSamples_device dev s0 w0 s (hlw ▸ hsl)
    · refine ⟨rws, rfl, ?_⟩
      rw [← h, List.length_flatten, zipWith_windowSamples_lengths]
      have hlen : (rows.filter (fun row =>
          row.device_id == dev && inRange range row.startTs)).length =
          rws.length := by
        rw [decompress_length archive _ rws hd, List.length_map]
      clear h hd
      generalize rows.filter (fun row =>
        row.device_id == dev && inRange range row.startTs) = sel at hlen
      induction sel generalizing rws with
      | nil =>
        cases rws with
        | nil => rfl
        | cons a b => simp at hlen
      | cons x xs ih =>
        cases rws with
        | nil => simp at hlen
        | cons rw2 rws2 =>
          simp only [List.zipWith_cons_cons, List.map_cons, List.sum_cons]
          simp only [List.length_cons, Nat.add_right_cancel_iff] at hlen
          rw [ih rws2 hlen]

/-- Witness for C8: two records of device d1 in range, one of another
device; the entry point returns four samples, all tagged d1. -/
theorem export_decompress_entry_witness :
    (∀ s ∈ ([{ device_id := "d1", timestamp := 0, value := 1 },
             { device_id := "d1", timestamp := 1, value := 1 },
             { device_id := "d1", timestamp := 2, value := 1 },
             { device_id := "d1", timestamp := 3, value := 1 }] :
        List ReconstructedSample), s.device_id = "d1") ∧
    ∃ rws,
      decompress [mkTemplate 0 [1, 1] 0]
        ((([{ device_id := "d1", startTs := 0,
              crec := .newTemplate 0 [1, 1] },
            { device_id := "d1", startTs := 2,
              crec := .matchedReference 0 none (2, 4) },
            { device_id := "d2", startTs := 0,
              crec := .newTemplate 0 [7] }] : List RecordRow).filter
          (fun row => row.device_id == "d1" &&
            inRange (some (0, 3)) row.startTs)).map
            (fun row => row.crec)) = .ok rws ∧
      ([{ device_id := "d1", timestamp := 0, value := 1 },
        { device_id := "d1", timestamp := 1, value := 1 },
        { device_id := "d1", timestamp := 2, value := 1 },
        { device_id := "d1", timestamp := 3, value := 1 }] :
          List ReconstructedSample).length = (rws.map List.length).sum :=
  export_decompress_entry [mkTemplate 0 [1, 1] 0]
    [{ device_id := "d1", startTs := 0, crec := .newTemplate 0 [1, 1] },
     { device_id := "d1", startTs := 2,
       crec := .matchedReference 0 none (2, 4) },
     { device_id := "d2", startTs := 0, crec := .newTemplate 0 [7] }]
    "d1" (some (0, 3))
    [{ device_id := "d1", timestamp := 0, value := 1 },
     { device_id := "d1", timestamp := 1, value := 1 },
     { device_id := "d1", timestamp := 2, value := 1 },
     { device_id := "d1", timestamp := 3, value := 1 }]
    (by with_unfolding_all rfl)

/-- A browser localStorage snapshot as key/value pairs; getItem returns
the first stored value for the key, or none for the JavaScript null. -/
def getItem (storage : List (String × String)) (k : String) : Option String :=
  (storage.find? (fun p => p.1 == k)).map (fun p => p.2)

/-- An axios request configuration, reduced to the fields the request
interceptor reads or writes. -/
structure AxiosConfig where
  url : String
  authHeader : Option String
deriving Repr, DecidableEq

/-- Embedded from src/frontend/src/api/api.js, the request interceptor:
read the token from localStorage and, when it is truthy (JavaScript
truthiness on the string: non-null and non-empty), set the Authorization
header to Bearer followed by the token; then return the
configuration. -/
def requestInterceptor (storage : List (String × String))
    (config : AxiosConfig) : AxiosConfig :=
  match getItem storage "token" with
  | none => config
  | some token =>
      if token ≠ "" then
        { config with authHeader := some ("Bearer " ++ token) }
      else config

/-- Counterexample for C9: localStorage holding an empty-string token
does contain a token entry, yet the interceptor leaves the configuration
unchanged and sets no Authorization header. -/
theorem interceptor_empty_token_counterexample :
    (getItem [("token", "")] "token").isSome = true ∧
    requestInterceptor [("token", "")]
        { url := "/devices/", authHeader := none } =
      { url := "/devices/", authHeader := none } ∧
    ({ url := "/devices/", authHeader := none } : AxiosConfig).authHeader ≠
      some ("Bearer " ++ "") := by
  refine ⟨rfl, rfl, ?_⟩
  simp

/-- C9 (amended): the interceptor returns the configuration with the
Authorization header set to Bearer plus the token exactly when
localStorage holds a non-empty token entry; when the token entry is
absent or empty, the configuration is returned unchanged. -/
theorem interceptor_bearer_iff_nonempty_token
    (storage : List (String × String)) (config : AxiosConfig) :
    (∀ t, getItem storage "token" = some t → t ≠ "" →
      requestInterceptor storage config =
        { config with authHeader := some ("Bearer " ++ t) }) ∧
    ((getItem storage "token" = none ∨ getItem storage "token" = some "") →
      requestInterceptor storage config = config) := by
  constructor
  · intro t ht hne
    unfold requestInterceptor
    rw [ht]
    dsimp only
    rw [if_pos hne]
  · intro h
    rcases h with h | h <;> unfold requestInterceptor <;> rw [h]
    dsimp only
    rw [if_neg (by simp)]

/-- A device entry as held in the DeviceControl component state: the
identifier, the last sent value rendered as a string, and the remaining
object fields — untouched by handleTurn — abstracted as one field. -/
structure DeviceEntry where
  device_id : String
  last_value : String
  rest : List (String × String)
deriving Repr, DecidableEq

/-- The part of the backend turn response handleTurn inspects. -/
structure TurnResponse where
  success : Bool
  message : String
deriving Repr, DecidableEq

/-- Embedded from src/frontend/src/components/DeviceControl.jsx,
handleTurn lines 308 to 335: on a successful response the device list is
mapped, spreading each entry and replacing last_value with the string
form of the sent value on entries whose device_id equals the target;
on an unsuccessful response the list is left untouched. -/
def handleTurn (resp : TurnResponse) (target : String) (value : Int)
    (devs : List DeviceEntry) : List DeviceEntry :=
  if resp.success then
    devs.map (fun d =>
      if d.device_id = target then { d with last_value := toString value }
      else d)
  else devs

/-- C10: after a successful turn response the device list keeps its
length and order, every entry whose device_id differs from the target is
unchanged, the entries matching the target change only their last_value,
which becomes the string form of the sent value; after a failed response
the list is unchanged. -/
theorem handleTurn_frame (resp : TurnResponse) (target : String)
    (value : Int) (devs : List DeviceEntry) :
    (handleTurn resp target value devs).length = devs.length ∧
    (resp.success = true →
      ∀ i d, devs.get? i = some d →
        (d.device_id ≠ target →
          (handleTurn resp target value devs).get? i = some d) ∧
        (d.device_id = target →
          (handleTurn resp target value devs).get? i =
            some { d with last_value := toString value })) ∧
    (resp.success = false → handleTurn resp target value devs = devs) := by
  unfold handleTurn
  cases hs : resp.success with
  | false =>
    rw [if_neg (by simp)]
    exact ⟨rfl, fun h => absurd h (by simp), fun _ => rfl⟩
  | true =>
    rw [if_pos rfl]
    refine ⟨by simp, ?_, fun h => absurd h (by simp)⟩
    intro _ i d hd
    constructor
    · intro hne
      rw [List.get?_map, hd, Option.map_some']
      rw [if_neg hne]
    · intro heq
      rw [List.get?_map, hd, Option.map_some']
      rw [if_pos heq]
